import Mathlib

/-!
Verification of the Token Resolver of `src/backend/Ahmad-Library/sign_service.py`
(repository SilentSpeaker).

Shallow embedding notes:
* Strings of the Python source are modelled as `List Char`; `str.lower`,
  `str.strip`, `str.split()` and the regexes are modelled over ASCII
  (the inputs the service handles); `re` character classes `\w`, `\s`,
  `[a-z0-9]` become the corresponding ASCII predicates.
* The external synthesis library (`_MODEL.translate` followed by
  `collect_mp4_paths`) is the black-box collaborator of the spec.  It is
  modelled as a function `translate : Token → Option (List String)`:
  `none` models a raised exception, `some ps` models a normal return whose
  collected mp4 paths are `ps`.
* Module-level configuration read from the filesystem at startup
  (`SUPPORTED_TOKENS`, `USE_PAUSE`/`PAUSE_PATH`, the local `0.mp4` asset)
  becomes an explicit environment record `Env`.
* The `while` loop of `process_text_to_clips` advances its cursor by at
  least one token per iteration; it is modelled by structural recursion on
  a fuel argument initialised to the token count (always sufficient,
  see `resolve_loop_fuel_irrelevant`).
-/

namespace SilentSpeaker

/-- A token (a Python string) is a list of characters. -/
abbrev Token := List Char

/-- Python whitespace (`str.strip` / `str.split()` / regex `\s`), ASCII part. -/
def isSpaceCh (c : Char) : Bool := c.isWhitespace

/-- `str.strip()`: drop leading and trailing whitespace. -/
def pyStrip (l : List Char) : List Char :=
  ((l.dropWhile isSpaceCh).reverse.dropWhile isSpaceCh).reverse

/-- `str.lower()` on ASCII: map `A`-`Z` (codes 65-90) to `a`-`z`. -/
def pyLower (c : Char) : Char :=
  if 65 ≤ c.toNat ∧ c.toNat ≤ 90 then Char.ofNat (c.toNat + 32) else c

/-- Regex `\w` (ASCII part): alphanumeric or underscore. -/
def isWordChar (c : Char) : Bool := c.isAlphanum || c = '_'

/-- A character survives `re.sub(r"[^\w\s\-]", "", word)` iff it is in
`[\w\s\-]`. -/
def keepChar (c : Char) : Bool := isWordChar c || isSpaceCh c || c = '-'

/-- `clean_token` (sign_service.py lines 31-35):
`word.strip().lower()`, then `re.sub(r"[^\w\s\-]", "", word)`, then
`word.strip()`. -/
def clean_token (word : List Char) : List Char :=
  pyStrip (((pyStrip word).map pyLower).filter keepChar)

/-- `str.split()` (no argument): split on whitespace runs, no empty tokens.
`acc` holds the characters of the current in-progress token, reversed. -/
def pySplitAux (acc : List Char) : List Char → List (List Char)
  | [] => if acc = [] then [] else [acc.reverse]
  | c :: rest =>
    if isSpaceCh c then
      if acc = [] then pySplitAux [] rest else acc.reverse :: pySplitAux [] rest
    else
      pySplitAux (c :: acc) rest

/-- `cleaned.split()` (sign_service.py line 151). -/
def pySplitWs (l : List Char) : List (List Char) := pySplitAux [] l

/-- Environment of the resolver: the black-box Synthesizer together with the
configuration the module loads at startup. -/
structure Env where
  /-- `collect_mp4_paths(_MODEL.translate tok)`: `none` models a raised
  exception, `some ps` a normal return with collected mp4 paths `ps`. -/
  translate : Token → Option (List String)
  /-- `SUPPORTED_TOKENS`, the Vocabulary Set (membership is all that is
  used, so a list models the Python set). -/
  vocab : List Token
  /-- `USE_PAUSE = os.path.exists(PAUSE_PATH)`. -/
  usePause : Bool
  /-- `PAUSE_PATH`. -/
  pausePath : String
  /-- `os.path.exists(local_zero)` for the local `0.mp4` asset. -/
  zeroExists : Bool
  /-- The path of the local `0.mp4` asset. -/
  zeroPath : String

/-- `try_whole_token` (lines 80-90): translate, collect paths, succeed iff
some path was produced; an exception gives `(False, [])`. -/
def try_whole_token (env : Env) (token : Token) : Bool × List String :=
  match env.translate token with
  | none => (false, [])
  | some paths => if paths.isEmpty then (false, []) else (true, paths)

/-- `f"{letter}(single-handed-letter)"`. -/
def singleHanded (letter : Char) : Token := letter :: "(single-handed-letter)".data

/-- `f"{letter}(double-handed-letter)"`. -/
def doubleHanded (letter : Char) : Token := letter :: "(double-handed-letter)".data

/-- The condition `collect_mp4_paths(_MODEL.translate(tok))` is truthy,
with the surrounding `try/except` (an exception counts as falsy). -/
def translateYields (env : Env) (tok : Token) : Bool :=
  match env.translate tok with
  | none => false
  | some paths => !paths.isEmpty

/-- `letter_token` (lines 56-76): single-handed first, double-handed as
fallback, `None` when both fail. -/
def letter_token (env : Env) (letter : Char) : Option Token :=
  if translateYields env (singleHanded letter) then some (singleHanded letter)
  else if translateYields env (doubleHanded letter) then some (doubleHanded letter)
  else none

/-- `re.fullmatch(r"[a-z0-9]", ch)` (ASCII). -/
def spellCharOk (c : Char) : Bool := ('a' ≤ c && c ≤ 'z') || c.isDigit

/-- `try_spell_word` (lines 93-130): spell a word character by character;
any failure aborts with `(False, [])`, success returns all accumulated
paths. Digits try whole-token synthesis of the digit with a local-asset
special case for `0`; letters go through `letter_token` and a second
translation of the chosen token. -/
def try_spell_word (env : Env) : Token → Bool × List String
  | [] => (true, [])
  | c :: rest =>
    if !spellCharOk c then (false, [])
    else if c.isDigit then
      match try_whole_token env [c] with
      | (true, ps) =>
        match try_spell_word env rest with
        | (true, qs) => (true, ps ++ qs)
        | (false, _) => (false, [])
      | (false, _) =>
        if c = '0' && env.zeroExists then
          match try_spell_word env rest with
          | (true, qs) => (true, env.zeroPath :: qs)
          | (false, _) => (false, [])
        else (false, [])
    else
      match letter_token env c with
      | none => (false, [])
      | some tok =>
        match env.translate tok with
        | none => (false, [])
        | some ps =>
          if ps.isEmpty then (false, [])
          else
            match try_spell_word env rest with
            | (true, qs) => (true, ps ++ qs)
            | (false, _) => (false, [])

/-- `" ".join(words)`. -/
def joinSpace (words : List Token) : Token :=
  match words with
  | [] => []
  | w :: ws => w ++ (ws.flatMap (fun v => ' ' :: v))

/-- `" ".join(tokens[i:i+size])`. -/
def phraseSlice (tokens : List Token) (i size : Nat) : Token :=
  joinSpace ((tokens.drop i).take size)

/-- `max_phrase_match` (lines 133-143): longest phrase of up to 3 words
starting at `i` that is in the Vocabulary Set; `(None, 0)` otherwise. -/
def max_phrase_match (env : Env) (tokens : List Token) (i : Nat) :
    Option Token × Nat :=
  if phraseSlice tokens i 3 ∈ env.vocab then (some (phraseSlice tokens i 3), 3)
  else if phraseSlice tokens i 2 ∈ env.vocab then (some (phraseSlice tokens i 2), 2)
  else if phraseSlice tokens i 1 ∈ env.vocab then (some (phraseSlice tokens i 1), 1)
  else (none, 0)

/-- `"+".join(word)`: the characters of `word` joined by `'+'`. -/
def joinPlus (word : Token) : Token :=
  match word with
  | [] => []
  | c :: cs => c :: cs.flatMap (fun d => ['+', d])

/-- `word.isdigit() and len(word) > 1` (ASCII digits). -/
def isMultiDigit (word : Token) : Bool := word.length > 1 && word.all Char.isDigit

/-- What one iteration of the `while` loop (lines 161-212) does to the
token under the cursor: which branch fired, with the clips it produced. -/
inductive Outcome where
  /-- Lines 164-172: a vocabulary phrase matched and synthesized. -/
  | phraseHit (phrase : Token) (clips : List String)
  /-- Lines 192-199: whole-token synthesis of the single word succeeded. -/
  | wholeHit (word : Token) (clips : List String)
  /-- Lines 177-185 and 202-209: spelling (digit-by-digit or
  letter-by-letter) succeeded. -/
  | spellHit (word : Token) (clips : List String)
  /-- Lines 186-189 and 211-212: the word was recorded as skipped. -/
  | skipHit (word : Token)
deriving DecidableEq

/-- The label the outcome appends to `translated_labels` (lines 170, 183,
197, 207), if any. -/
def outcomeLabel : Outcome → Option Token
  | .phraseHit p _ => some p
  | .wholeHit w _ => some w
  | .spellHit w _ => some (joinPlus w)
  | .skipHit _ => none

/-- The entry the outcome appends to `skipped` (lines 187, 211), if any. -/
def outcomeSkip : Outcome → Option Token
  | .skipHit w => some w
  | _ => none

/-- The clips of the outcome, without the separator. -/
def outcomeRawClips : Outcome → List String
  | .phraseHit _ ps => ps
  | .wholeHit _ ps => ps
  | .spellHit _ ps => ps
  | .skipHit _ => []

/-- What the outcome appends to `mp4_paths`: its clips followed by the
pause clip when `USE_PAUSE` (lines 167-169, 180-182, 194-196, 204-206). -/
def outcomeClips (env : Env) (o : Outcome) : List String :=
  match o with
  | .skipHit _ => []
  | o => outcomeRawClips o ++ (if env.usePause then [env.pausePath] else [])

/-- Lines 174-212: the single-word part of a loop iteration (after the
phrase attempt), always consuming one token. -/
def stepSingle (env : Env) (w : Token) : Outcome × Nat :=
  if isMultiDigit w then
    match try_spell_word env w with
    | (true, ps) => (.spellHit w ps, 1)
    | (false, _) => (.skipHit w, 1)
  else
    match try_whole_token env w with
    | (true, ps) => (.wholeHit w ps, 1)
    | (false, _) =>
      match try_spell_word env w with
      | (true, ps) => (.spellHit w ps, 1)
      | (false, _) => (.skipHit w, 1)

/-- One full iteration of the `while` loop at cursor position `i`, acting
on the remaining tokens `w :: rest = tokens[i:]`: the outcome together
with the number of tokens the cursor advances by. -/
def step_tokens (env : Env) (w : Token) (rest : List Token) : Outcome × Nat :=
  match max_phrase_match env (w :: rest) 0 with
  | (some phrase, size) =>
    match try_whole_token env phrase with
    | (true, ps) => (.phraseHit phrase ps, size)
    | (false, _) => stepSingle env w
  | (none, _) => stepSingle env w

/-- The `while` loop of `process_text_to_clips` (lines 160-212), on the
suffix of tokens not yet consumed, returning
`(mp4_paths, translated_labels, skipped)` contributed from here on.
The fuel argument only serves structural recursion; `fuel = length` is
always enough because the cursor advances by at least 1. -/
def resolve_loop (env : Env) : Nat → List Token → List String × List Token × List Token
  | _, [] => ([], [], [])
  | 0, _ :: _ => ([], [], [])
  | fuel + 1, w :: rest =>
    let s := step_tokens env w rest
    let r := resolve_loop env fuel (rest.drop (s.2 - 1))
    (outcomeClips env s.1 ++ r.1,
     (outcomeLabel s.1).toList ++ r.2.1,
     (outcomeSkip s.1).toList ++ r.2.2)

/-- Trace of the loop: the outcome of each iteration, paired with the group of
tokens the cursor consumed (`tokens[i:i+advance]`). -/
def run_trace (env : Env) : Nat → List Token → List (Outcome × List Token)
  | _, [] => []
  | 0, _ :: _ => []
  | fuel + 1, w :: rest =>
    let s := step_tokens env w rest
    (s.1, (w :: rest).take s.2) :: run_trace env fuel (rest.drop (s.2 - 1))

/-- Lines 214-216: `if USE_PAUSE and mp4_paths and mp4_paths[-1] == PAUSE_PATH:
mp4_paths.pop()`. -/
def trimTrailingPause (env : Env) (clips : List String) : List String :=
  if env.usePause = true ∧ clips ≠ [] ∧ clips.getLast? = some env.pausePath then
    clips.dropLast
  else clips

/-- `process_text_to_clips` (lines 145-218): normalize, split, run the
resolution loop, remove a trailing pause clip. -/
def process_text_to_clips (env : Env) (text : List Char) :
    List String × List Token × List Token :=
  let tokens := pySplitWs (clean_token text)
  let r := resolve_loop env tokens.length tokens
  (trimTrailingPause env r.1, r.2.1, r.2.2)

/-- The loop iteration on the suffix `ts` consumes a phrase: the
vocabulary match of lines 162-164 found a phrase and its whole-token
synthesis succeeded. -/
def phraseConsumed (env : Env) (ts : List Token) : Bool :=
  match max_phrase_match env ts 0 with
  | (some p, _) => (try_whole_token env p).1
  | (none, _) => false

/-- The same environment with every Synthesizer exception replaced by a
normal return of zero clips. -/
def exnFree (env : Env) : Env :=
  { env with translate := fun t => some ((env.translate t).getD []) }

/-- Clip lists of the resolved units, in order (skips contribute
nothing). -/
def resolvedClips (o : Outcome) : Option (List String) :=
  match o with
  | .skipHit _ => none
  | o => some (outcomeRawClips o)

/-- Lists joined by a single separator element between consecutive lists
(and nowhere else). -/
def sepJoin (sep : String) : List (List String) → List String
  | [] => []
  | [u] => u
  | u :: us => u ++ sep :: sepJoin sep us

/-- ASCII uppercase (codes 65-90). -/
def isUpperAscii (c : Char) : Bool := 65 ≤ c.toNat ∧ c.toNat ≤ 90

/-! Concrete environments for counterexamples and witnesses. -/

/-- Synthesizer that only knows `"a b"`, vocabulary containing both
`"a b c"` and `"a b"`. -/
def envGate : Env where
  translate := fun t => if t = "a b".data then some ["ab.mp4"] else none
  vocab := ["a b c".data, "a b".data]
  usePause := false
  pausePath := "Pause.mp4"
  zeroExists := false
  zeroPath := "0.mp4"

/-- Synthesizer that can synthesize the whole numeral `"42"` but no
single digit; empty vocabulary. -/
def envNum : Env where
  translate := fun t => if t = "42".data then some ["42.mp4"] else none
  vocab := []
  usePause := false
  pausePath := "Pause.mp4"
  zeroExists := false
  zeroPath := "0.mp4"

/-- Synthesizer knowing the phrase `"good morning"` and the word
`"good"`, both in the vocabulary. -/
def envGm : Env where
  translate := fun t =>
    if t = "good morning".data then some ["gm.mp4"]
    else if t = "good".data then some ["g.mp4"] else none
  vocab := ["good morning".data, "good".data]
  usePause := true
  pausePath := "Pause.mp4"
  zeroExists := false
  zeroPath := "0.mp4"

/-- Synthesizer knowing the digits `"4"` and `"2"`; empty vocabulary. -/
def envDigits : Env where
  translate := fun t =>
    if t = "4".data then some ["4.mp4"]
    else if t = "2".data then some ["2.mp4"] else none
  vocab := []
  usePause := false
  pausePath := "Pause.mp4"
  zeroExists := false
  zeroPath := "0.mp4"

/-- Synthesizer knowing only the word `"hi"`, with the pause clip
configured. -/
def envHi : Env where
  translate := fun t => if t = "hi".data then some ["h.mp4"] else none
  vocab := []
  usePause := true
  pausePath := "Pause.mp4"
  zeroExists := false
  zeroPath := "0.mp4"

/-- `envHi` with a different pause/zero configuration (same Synthesizer,
same vocabulary, same zero-asset availability). -/
def envHiNoPause : Env :=
  { envHi with usePause := false, pausePath := "Other.mp4", zeroPath := "Z.mp4" }

/-- The token sequence the resolver derives from the raw input. -/
def tokensOf (text : List Char) : List Token := pySplitWs (clean_token text)

/-- The trace of the resolution loop on the tokens of the input. -/
def traceOf (env : Env) (text : List Char) : List (Outcome × List Token) :=
  run_trace env (tokensOf text).length (tokensOf text)

/-- A Synthesizer that raises on every token; empty vocabulary. -/
def envBare : Env where
  translate := fun _ => none
  vocab := []
  usePause := false
  pausePath := "Pause.mp4"
  zeroExists := false
  zeroPath := "0.mp4"

end SilentSpeaker

namespace SilentSpeaker

theorem try_whole_token_true {env : Env} {t : Token} {ps : List String}
    (h : try_whole_token env t = (true, ps)) :
    env.translate t = some ps ∧ ps ≠ [] := by
  unfold try_whole_token at h
  split at h
  · simp at h
  · next qs heq =>
    split at h
    · simp at h
    · next hq =>
      cases h
      exact ⟨heq, by simpa [List.isEmpty_iff] using hq⟩

theorem try_whole_token_fst {env : Env} {t : Token}
    (h : (try_whole_token env t).1 = true) :
    try_whole_token env t = (true, (try_whole_token env t).2) := by
  cases hw : try_whole_token env t with
  | mk b ps =>
    rw [hw] at h
    subst h
    rfl

theorem try_spell_word_true_nonempty {env : Env} {w : Token} {ps : List String}
    (hw : w ≠ []) (h : try_spell_word env w = (true, ps)) : ps ≠ [] := by
  cases w with
  | nil => exact absurd rfl hw
  | cons c rest =>
    unfold try_spell_word at h
    split at h
    · simp at h
    · split at h
      · split at h
        · next qs hwt =>
          split at h
          · cases h
            have := (try_whole_token_true hwt).2
            exact fun hcon => this (List.append_eq_nil.mp hcon).1
          · simp at h
        · split at h
          · split at h
            · cases h; simp
            · simp at h
          · simp at h
      · split at h
        · simp at h
        · split at h
          · simp at h
          · split at h
            · simp at h
            · next qs htr hq =>
              split at h
              · cases h
                simp [List.isEmpty_iff] at hq
                exact fun hcon => hq (List.append_eq_nil.mp hcon).1
              · simp at h



theorem try_spell_word_clips {env : Env} {w : Token} {ps : List String}
    (h : try_spell_word env w = (true, ps)) :
    ∀ x ∈ ps, (∃ t qs, env.translate t = some qs ∧ x ∈ qs) ∨ x = env.zeroPath := by
  induction w generalizing ps with
  | nil => unfold try_spell_word at h; cases h; simp
  | cons c rest ih =>
    unfold try_spell_word at h
    split at h
    · simp at h
    · split at h
      · split at h
        · next qs hwt =>
          split at h
          · next rps hr =>
            cases h
            intro x hx
            rcases List.mem_append.mp hx with hx | hx
            · exact Or.inl ⟨[c], qs, (try_whole_token_true hwt).1, hx⟩
            · exact ih hr x hx
          · simp at h
        · split at h
          · split at h
            · next rps hr =>
              cases h
              intro x hx
              rcases List.mem_cons.mp hx with rfl | hx
              · exact Or.inr rfl
              · exact ih hr x hx
            · simp at h
          · simp at h
      · split at h
        · simp at h
        · split at h
          · simp at h
          · split at h
            · simp at h
            · next tok htr' qs htr hq =>
              split at h
              · next rps hr =>
                cases h
                intro x hx
                rcases List.mem_append.mp hx with hx | hx
                · exact Or.inl ⟨_, qs, htr, hx⟩
                · exact ih hr x hx
              · simp at h

theorem max_phrase_match_some {env : Env} {ts : List Token} {i : Nat}
    {p : Token} {n : Nat} (h : max_phrase_match env ts i = (some p, n)) :
    (n = 3 ∨ n = 2 ∨ n = 1) ∧ p = phraseSlice ts i n ∧ p ∈ env.vocab := by
  unfold max_phrase_match at h
  split at h
  · cases h; exact ⟨Or.inl rfl, rfl, by assumption⟩
  · split at h
    · cases h; exact ⟨Or.inr (Or.inl rfl), rfl, by assumption⟩
    · split at h
      · cases h; exact ⟨Or.inr (Or.inr rfl), rfl, by assumption⟩
      · cases h

theorem stepSingle_cases (env : Env) (w : Token) :
    (∃ ps, stepSingle env w = (.wholeHit w ps, 1) ∧ try_whole_token env w = (true, ps)) ∨
    (∃ ps, stepSingle env w = (.spellHit w ps, 1) ∧ try_spell_word env w = (true, ps)) ∨
    stepSingle env w = (.skipHit w, 1) := by
  unfold stepSingle
  split
  · cases hsp : try_spell_word env w with
    | mk sb sps =>
      cases sb
      · exact Or.inr (Or.inr rfl)
      · exact Or.inr (Or.inl ⟨sps, rfl, rfl⟩)
  · cases hwt : try_whole_token env w with
    | mk b2 ps2 =>
      cases b2
      · cases hsp : try_spell_word env w with
        | mk sb sps =>
          cases sb
          · exact Or.inr (Or.inr rfl)
          · exact Or.inr (Or.inl ⟨sps, rfl, rfl⟩)
      · exact Or.inl ⟨ps2, rfl, rfl⟩

theorem stepSingle_pos (env : Env) (w : Token) : (stepSingle env w).2 = 1 := by
  rcases stepSingle_cases env w with ⟨ps, hs, _⟩ | ⟨ps, hs, _⟩ | hs <;> simp [hs]

theorem step_tokens_pos (env : Env) (w : Token) (rest : List Token) :
    1 ≤ (step_tokens env w rest).2 := by
  unfold step_tokens
  split
  · next p n hm =>
    cases hwt : try_whole_token env p with
    | mk b ps =>
      cases b
      · exact le_of_eq (stepSingle_pos env w).symm
      · rcases (max_phrase_match_some hm).1 with rfl | rfl | rfl <;> simp
  · exact le_of_eq (stepSingle_pos env w).symm

theorem step_tokens_cases (env : Env) (w : Token) (rest : List Token) :
    (∃ p ps n, step_tokens env w rest = (.phraseHit p ps, n) ∧
       max_phrase_match env (w :: rest) 0 = (some p, n) ∧
       try_whole_token env p = (true, ps)) ∨
    (∃ ps, step_tokens env w rest = (.wholeHit w ps, 1) ∧
       try_whole_token env w = (true, ps)) ∨
    (∃ ps, step_tokens env w rest = (.spellHit w ps, 1) ∧
       try_spell_word env w = (true, ps)) ∨
    step_tokens env w rest = (.skipHit w, 1) := by
  unfold step_tokens
  split
  · next p n hm =>
    cases hwt : try_whole_token env p with
    | mk b ps =>
      cases b
      · rcases stepSingle_cases env w with ⟨qs, hs, hw2⟩ | ⟨qs, hs, hw2⟩ | hs
        · exact Or.inr (Or.inl ⟨qs, hs, hw2⟩)
        · exact Or.inr (Or.inr (Or.inl ⟨qs, hs, hw2⟩))
        · exact Or.inr (Or.inr (Or.inr hs))
      · exact Or.inl ⟨p, ps, n, rfl, hm, hwt⟩
  · rcases stepSingle_cases env w with ⟨qs, hs, hw2⟩ | ⟨qs, hs, hw2⟩ | hs
    · exact Or.inr (Or.inl ⟨qs, hs, hw2⟩)
    · exact Or.inr (Or.inr (Or.inl ⟨qs, hs, hw2⟩))
    · exact Or.inr (Or.inr (Or.inr hs))


theorem mem_pyStrip {c : Char} {l : List Char} (h : c ∈ pyStrip l) : c ∈ l := by
  unfold pyStrip at h
  rw [List.mem_reverse] at h
  have h2 : c ∈ (l.dropWhile isSpaceCh).reverse := (List.dropWhile_sublist _).subset h
  rw [List.mem_reverse] at h2
  exact (List.dropWhile_sublist _).subset h2

theorem char_toNat_ofNat_valid (n : Nat) (h1 : n < 55296) : (Char.ofNat n).toNat = n := by
  have hv : n.isValidChar := Or.inl h1
  simp only [Char.ofNat, hv, dif_pos, Char.toNat, Char.ofNatAux, UInt32.toNat,
    BitVec.toNat_ofNatLt]

theorem pyLower_not_upper (c : Char) : isUpperAscii (pyLower c) = false := by
  unfold pyLower isUpperAscii
  split
  · next h =>
    rw [char_toNat_ofNat_valid (c.toNat + 32) (by omega)]
    simp only [decide_eq_false_iff_not]
    omega
  · next h =>
    simp only [decide_eq_false_iff_not]
    omega

theorem pySplitAux_ne_nil {l acc t : List Char} (ht : t ∈ pySplitAux acc l) : t ≠ [] := by
  induction l generalizing acc with
  | nil =>
    unfold pySplitAux at ht
    split at ht
    · simp at ht
    · next h =>
      simp at ht
      subst ht
      intro hn
      exact h (by simpa using hn)
  | cons c rest ih =>
    unfold pySplitAux at ht
    split at ht
    · split at ht
      · exact ih ht
      · next h =>
        rcases List.mem_cons.mp ht with rfl | ht2
        · intro hn
          exact h (by simpa using hn)
        · exact ih ht2
    · exact ih ht

theorem pySplitAux_chars {l acc t : List Char} {c : Char}
    (hacc : ∀ x ∈ acc, isSpaceCh x = false)
    (ht : t ∈ pySplitAux acc l) (hc : c ∈ t) :
    (c ∈ acc ∨ c ∈ l) ∧ isSpaceCh c = false := by
  induction l generalizing acc with
  | nil =>
    unfold pySplitAux at ht
    split at ht
    · simp at ht
    · simp at ht
      subst ht
      rw [List.mem_reverse] at hc
      exact ⟨Or.inl hc, hacc c hc⟩
  | cons d rest ih =>
    unfold pySplitAux at ht
    split at ht
    · next hd =>
      split at ht
      · rcases ih (by simp) ht with ⟨h1 | h1, h2⟩
        · simp at h1
        · exact ⟨Or.inr (List.mem_cons_of_mem d h1), h2⟩
      · rcases List.mem_cons.mp ht with rfl | ht2
        · rw [List.mem_reverse] at hc
          exact ⟨Or.inl hc, hacc c hc⟩
        · rcases ih (by simp) ht2 with ⟨h1 | h1, h2⟩
          · simp at h1
          · exact ⟨Or.inr (List.mem_cons_of_mem d h1), h2⟩
    · next hd =>
      have hacc2 : ∀ x ∈ d :: acc, isSpaceCh x = false := by
        intro x hx
        rcases List.mem_cons.mp hx with rfl | hx2
        · simpa using hd
        · exact hacc x hx2
      rcases ih hacc2 ht with ⟨h1, h2⟩
      rcases h1 with h1 | h1
      · rcases List.mem_cons.mp h1 with rfl | h1₂
        · exact ⟨Or.inr (List.mem_cons_self _ _), h2⟩
        · exact ⟨Or.inl h1₂, h2⟩
      · exact ⟨Or.inr (List.mem_cons_of_mem d h1), h2⟩

theorem pySplitWs_tokens {l t : List Char} (ht : t ∈ pySplitWs l) :
    t ≠ [] ∧ ∀ c ∈ t, c ∈ l ∧ isSpaceCh c = false := by
  refine ⟨pySplitAux_ne_nil ht, fun c hc => ?_⟩
  rcases pySplitAux_chars (by simp) ht hc with ⟨h1 | h1, h2⟩
  · simp at h1
  · exact ⟨h1, h2⟩

theorem clean_token_chars {w : List Char} {c : Char} (h : c ∈ clean_token w) :
    keepChar c = true ∧ ∃ c0, c = pyLower c0 := by
  unfold clean_token at h
  have h1 : c ∈ ((pyStrip w).map pyLower).filter keepChar := mem_pyStrip h
  rw [List.mem_filter] at h1
  rcases h1 with ⟨h2, h3⟩
  rcases List.mem_map.mp h2 with ⟨c0, _, rfl⟩
  exact ⟨h3, c0, rfl⟩

theorem run_trace_groups (env : Env) :
    ∀ (fuel : Nat) (ts : List Token), ts.length ≤ fuel →
      ((run_trace env fuel ts).map (·.2)).flatten = ts := by
  intro fuel
  induction fuel with
  | zero =>
    intro ts h
    cases ts with
    | nil => simp [run_trace]
    | cons w rest => simp at h
  | succ fuel ih =>
    intro ts h
    cases ts with
    | nil => simp [run_trace]
    | cons w rest =>
      simp only [run_trace, List.map_cons, List.flatten_cons]
      have hpos := step_tokens_pos env w rest
      have hlen : (rest.drop ((step_tokens env w rest).2 - 1)).length ≤ fuel := by
        simp only [List.length_drop]
        simp only [List.length_cons] at h
        omega
      rw [ih _ hlen]
      obtain ⟨m, hm⟩ : ∃ m, (step_tokens env w rest).2 = m + 1 :=
        ⟨(step_tokens env w rest).2 - 1, by omega⟩
      rw [hm, List.take_succ_cons]
      simp only [Nat.add_sub_cancel]
      rw [List.cons_append, List.take_append_drop]

theorem resolve_loop_trace (env : Env) :
    ∀ (fuel : Nat) (ts : List Token),
      resolve_loop env fuel ts =
        (((run_trace env fuel ts).map (fun e => outcomeClips env e.1)).flatten,
         (run_trace env fuel ts).filterMap (fun e => outcomeLabel e.1),
         (run_trace env fuel ts).filterMap (fun e => outcomeSkip e.1)) := by
  intro fuel
  induction fuel with
  | zero =>
    intro ts
    cases ts <;> simp [resolve_loop, run_trace]
  | succ fuel ih =>
    intro ts
    cases ts with
    | nil => simp [resolve_loop, run_trace]
    | cons w rest =>
      simp only [resolve_loop, run_trace, ih, List.map_cons, List.flatten_cons,
        List.filterMap_cons, Prod.mk.injEq]
      cases houtL : outcomeLabel (step_tokens env w rest).1 <;>
        cases houtS : outcomeSkip (step_tokens env w rest).1 <;>
          simp [houtL, houtS]

theorem run_trace_mem (env : Env) :
    ∀ (fuel : Nat) (ts : List Token) (e : Outcome × List Token),
      e ∈ run_trace env fuel ts →
      ∃ w rest, (∀ t ∈ w :: rest, t ∈ ts) ∧
        e = ((step_tokens env w rest).1, (w :: rest).take (step_tokens env w rest).2) := by
  intro fuel
  induction fuel with
  | zero =>
    intro ts e he
    cases ts <;> simp [run_trace] at he
  | succ fuel ih =>
    intro ts e he
    cases ts with
    | nil => simp [run_trace] at he
    | cons w rest =>
      simp only [run_trace, List.mem_cons] at he
      rcases he with rfl | he2
      · exact ⟨w, rest, fun t ht => ht, rfl⟩
      · rcases ih _ _ he2 with ⟨w2, rest2, hmem, hee⟩
        refine ⟨w2, rest2, fun t ht => ?_, hee⟩
        have h3 : t ∈ rest.drop ((step_tokens env w rest).2 - 1) := hmem t ht
        exact List.mem_cons_of_mem w (List.drop_subset _ _ h3)


theorem char_ge_toNat {a c : Char} (h : a ≤ c) : a.toNat ≤ c.toNat := by
  rw [Char.le_def, UInt32.le_def, BitVec.le_def] at h
  exact h

theorem lower_not_digit {c : Char} (h : 'a' ≤ c) : c.isDigit = false := by
  have h1 : 97 ≤ c.toNat := char_ge_toNat h
  simp only [Char.isDigit]
  rw [Bool.and_eq_false_iff]
  right
  simp only [decide_eq_false_iff_not]
  intro hle
  rw [UInt32.le_def, BitVec.le_def] at hle
  have h2 : c.toNat ≤ 57 := hle
  simp [Char.toNat] at h1 h2
  omega

theorem spellCharOk_of_lower {c : Char} (h1 : 'a' ≤ c) (h2 : c ≤ 'z') :
    spellCharOk c = true := by
  simp [spellCharOk, h1, h2]

theorem try_spell_word_head_bad (env : Env) {c : Char} (rest : Token)
    (hc : spellCharOk c = false) : try_spell_word env (c :: rest) = (false, []) := by
  unfold try_spell_word
  simp [hc]

theorem try_spell_word_rest_false (env : Env) (c : Char) {rest : Token}
    (hr : (try_spell_word env rest).1 = false) :
    try_spell_word env (c :: rest) = (false, []) := by
  unfold try_spell_word
  repeat' split
  all_goals simp_all

theorem translateYields_true_iff (env : Env) (t : Token) :
    translateYields env t = true ↔ ∃ ps, env.translate t = some ps ∧ ps ≠ [] := by
  unfold translateYields
  cases h : env.translate t with
  | none => simp
  | some ps => simp [List.isEmpty_iff]

theorem translateYields_false_iff (env : Env) (t : Token) :
    translateYields env t = false ↔
      env.translate t = none ∨ env.translate t = some [] := by
  unfold translateYields
  cases h : env.translate t with
  | none => simp
  | some ps => simp [List.isEmpty_iff]

theorem singleHanded_ne_doubleHanded (c : Char) : singleHanded c ≠ doubleHanded c := by
  unfold singleHanded doubleHanded
  simp only [ne_eq, List.cons.injEq, not_and]
  intro _
  decide

theorem exnFree_translate (env : Env) (t : Token) :
    (exnFree env).translate t = some ((env.translate t).getD []) := rfl

theorem exnFree_try_whole (env : Env) (t : Token) :
    try_whole_token (exnFree env) t = try_whole_token env t := by
  unfold try_whole_token
  rw [exnFree_translate]
  cases h : env.translate t with
  | none => simp
  | some ps => simp

theorem exnFree_yields (env : Env) (t : Token) :
    translateYields (exnFree env) t = translateYields env t := by
  unfold translateYields
  rw [exnFree_translate]
  cases h : env.translate t with
  | none => simp
  | some ps => simp

theorem exnFree_letter (env : Env) (c : Char) :
    letter_token (exnFree env) c = letter_token env c := by
  unfold letter_token
  rw [exnFree_yields, exnFree_yields]

theorem exnFree_spell (env : Env) (w : Token) :
    try_spell_word (exnFree env) w = try_spell_word env w := by
  induction w with
  | nil => rfl
  | cons c rest ih =>
    unfold try_spell_word
    simp only [exnFree_try_whole, exnFree_letter, ih]
    by_cases hc : (!spellCharOk c) = true
    · simp only [if_pos hc]
    · simp only [if_neg hc]
      by_cases hd : c.isDigit = true
      · simp only [if_pos hd]
        rfl
      · simp only [if_neg hd]
        cases hlt : letter_token env c with
        | none => rfl
        | some tok =>
          cases htr : env.translate tok with
          | none => simp [exnFree_translate, htr]
          | some qs => simp [exnFree_translate, htr]

theorem exnFree_phrase (env : Env) (ts : List Token) (i : Nat) :
    max_phrase_match (exnFree env) ts i = max_phrase_match env ts i := rfl

theorem exnFree_step (env : Env) (w : Token) (rest : List Token) :
    step_tokens (exnFree env) w rest = step_tokens env w rest := by
  unfold step_tokens stepSingle
  simp only [exnFree_phrase, exnFree_try_whole, exnFree_spell]

theorem exnFree_outcomeClips (env : Env) (o : Outcome) :
    outcomeClips (exnFree env) o = outcomeClips env o := by
  cases o <;> rfl

theorem exnFree_loop (env : Env) :
    ∀ (fuel : Nat) (ts : List Token),
      resolve_loop (exnFree env) fuel ts = resolve_loop env fuel ts := by
  intro fuel
  induction fuel with
  | zero => intro ts; cases ts <;> rfl
  | succ fuel ih =>
    intro ts
    cases ts with
    | nil => rfl
    | cons w rest =>
      simp only [resolve_loop, exnFree_step, exnFree_outcomeClips, ih]


theorem exnFree_trim (env : Env) (clips : List String) :
    trimTrailingPause (exnFree env) clips = trimTrailingPause env clips := rfl

/-- C7: any exception raised by the Synthesizer while processing a token is
caught locally and treated as zero clips produced for that attempt: running
the resolver with a Synthesizer that raises is the same as running it with a
Synthesizer that returns no clips there, so the exception never propagates,
never aborts the overall resolution, and all remaining tokens are still
processed. -/
theorem resolver_catches_synth_exceptions (env : Env) (text : List Char) :
    process_text_to_clips env text = process_text_to_clips (exnFree env) text := by
  unfold process_text_to_clips
  simp only [exnFree_loop, exnFree_trim]

/-- C9: an input that normalizes to an empty token sequence resolves to an
empty clip list, an empty label list, and an empty skipped list. -/
theorem empty_normalization_empty_result (env : Env) (text : List Char)
    (h : pySplitWs (clean_token text) = []) :
    process_text_to_clips env text = ([], [], []) := by
  simp [process_text_to_clips, h, resolve_loop, trimTrailingPause]

theorem empty_normalization_spot :
    pySplitWs (clean_token ("  !? ".data)) = [] ∧
    process_text_to_clips envBare ("  !? ".data) = ([], [], []) :=
  ⟨by decide, empty_normalization_empty_result envBare _ (by decide)⟩


/-- C3: every consumed token group has exactly one outcome: the groups of
the trace partition the token sequence in order; the label list and skipped
list are exactly the resolved and skipped outcomes of the trace in order;
every trace entry is resolved (one label, no skip entry) or skipped (one
skip entry, no label) and never both or neither; resolved entries
contribute at least one clip path and skipped entries contribute none. -/
theorem token_outcome_partition (env : Env) (text : List Char) :
    ((traceOf env text).map (fun e => e.2)).flatten = tokensOf text ∧
    (process_text_to_clips env text).2.1 =
      (traceOf env text).filterMap (fun e => outcomeLabel e.1) ∧
    (process_text_to_clips env text).2.2 =
      (traceOf env text).filterMap (fun e => outcomeSkip e.1) ∧
    (∀ e ∈ traceOf env text,
      ((outcomeLabel e.1).isSome = true ∧ outcomeSkip e.1 = none) ∨
      (outcomeLabel e.1 = none ∧ (outcomeSkip e.1).isSome = true)) ∧
    (∀ e ∈ traceOf env text,
      (outcomeLabel e.1).isSome = true → outcomeRawClips e.1 ≠ []) ∧
    (∀ e ∈ traceOf env text,
      (outcomeSkip e.1).isSome = true → outcomeRawClips e.1 = []) := by
  refine ⟨run_trace_groups env _ _ le_rfl, ?_, ?_, ?_, ?_, ?_⟩
  · unfold process_text_to_clips traceOf tokensOf
    simp only [resolve_loop_trace]
  · unfold process_text_to_clips traceOf tokensOf
    simp only [resolve_loop_trace]
  · intro e _
    rcases e with ⟨o, g⟩
    cases o <;> simp [outcomeLabel, outcomeSkip]
  · intro e he hl
    rcases run_trace_mem env _ _ e he with ⟨w, rest, hmem, rfl⟩
    have hwtok : w ∈ pySplitWs (clean_token text) := hmem w (List.mem_cons_self w rest)
    have hw : w ≠ [] := (pySplitWs_tokens hwtok).1
    rcases step_tokens_cases env w rest with
      ⟨p, ps, n, hstep, hmp, hwt⟩ | ⟨ps, hstep, hwt⟩ | ⟨ps, hstep, hsp⟩ | hstep
    · simp only [hstep, outcomeRawClips]
      exact (try_whole_token_true hwt).2
    · simp only [hstep, outcomeRawClips]
      exact (try_whole_token_true hwt).2
    · simp only [hstep, outcomeRawClips]
      exact try_spell_word_true_nonempty hw hsp
    · rw [hstep] at hl
      simp [outcomeLabel] at hl
  · intro e _ hs
    rcases e with ⟨o, g⟩
    cases o <;> simp_all [outcomeSkip, outcomeRawClips]


theorem try_whole_token_congr {env1 env2 : Env}
    (ht : env1.translate = env2.translate) (t : Token) :
    try_whole_token env1 t = try_whole_token env2 t := by
  unfold try_whole_token
  rw [ht]

theorem letter_token_congr {env1 env2 : Env}
    (ht : env1.translate = env2.translate) (c : Char) :
    letter_token env1 c = letter_token env2 c := by
  unfold letter_token translateYields
  rw [ht]

theorem try_spell_word_fst_congr {env1 env2 : Env}
    (ht : env1.translate = env2.translate)
    (hz : env1.zeroExists = env2.zeroExists) (w : Token) :
    (try_spell_word env1 w).1 = (try_spell_word env2 w).1 := by
  induction w with
  | nil => rfl
  | cons c rest ih =>
    unfold try_spell_word
    simp only [try_whole_token_congr ht, letter_token_congr ht, ht, hz]
    by_cases hc : (!spellCharOk c) = true
    · simp only [if_pos hc]
    · simp only [if_neg hc]
      by_cases hd : c.isDigit = true
      · simp only [if_pos hd]
        cases hwt : try_whole_token env2 [c] with
        | mk b ps =>
          cases b
          · by_cases hzb : (c = '0' && env2.zeroExists) = true
            · simp only [if_pos hzb]
              cases h1 : try_spell_word env1 rest with
              | mk b1 q1 =>
                cases h2 : try_spell_word env2 rest with
                | mk b2 q2 =>
                  have hb : b1 = b2 := by
                    have := ih
                    rw [h1, h2] at this
                    exact this
                  subst hb
                  cases b1 <;> simp
            · simp only [if_neg hzb]
          · cases h1 : try_spell_word env1 rest with
            | mk b1 q1 =>
              cases h2 : try_spell_word env2 rest with
              | mk b2 q2 =>
                have hb : b1 = b2 := by
                  have := ih
                  rw [h1, h2] at this
                  exact this
                subst hb
                cases b1 <;> simp
      · simp only [if_neg hd]
        cases hlt : letter_token env2 c with
        | none => rfl
        | some tok =>
          dsimp only
          cases htr : env2.translate tok with
          | none => rfl
          | some qs =>
            dsimp only
            by_cases hq : qs.isEmpty = true
            · simp [hq]
            · simp only [if_neg hq]
              cases h1 : try_spell_word env1 rest with
              | mk b1 q1 =>
                cases h2 : try_spell_word env2 rest with
                | mk b2 q2 =>
                  have hb : b1 = b2 := by
                    have := ih
                    rw [h1, h2] at this
                    exact this
                  subst hb
                  cases b1 <;> simp

theorem max_phrase_match_congr {env1 env2 : Env}
    (hv : env1.vocab = env2.vocab) (ts : List Token) (i : Nat) :
    max_phrase_match env1 ts i = max_phrase_match env2 ts i := by
  unfold max_phrase_match
  rw [hv]

theorem stepSingle_congr {env1 env2 : Env}
    (ht : env1.translate = env2.translate)
    (hz : env1.zeroExists = env2.zeroExists) (w : Token) :
    (stepSingle env1 w).2 = (stepSingle env2 w).2 ∧
    outcomeLabel (stepSingle env1 w).1 = outcomeLabel (stepSingle env2 w).1 ∧
    outcomeSkip (stepSingle env1 w).1 = outcomeSkip (stepSingle env2 w).1 := by
  unfold stepSingle
  split
  · cases h1 : try_spell_word env1 w with
    | mk b1 q1 =>
      cases h2 : try_spell_word env2 w with
      | mk b2 q2 =>
        have hb : b1 = b2 := by
          have := try_spell_word_fst_congr ht hz w
          rw [h1, h2] at this
          exact this
        subst hb
        cases b1 <;> simp [outcomeLabel, outcomeSkip]
  · rw [try_whole_token_congr ht]
    cases hwt : try_whole_token env2 w with
    | mk b ps =>
      cases b
      · cases h1 : try_spell_word env1 w with
        | mk b1 q1 =>
          cases h2 : try_spell_word env2 w with
          | mk b2 q2 =>
            have hb : b1 = b2 := by
              have := try_spell_word_fst_congr ht hz w
              rw [h1, h2] at this
              exact this
            subst hb
            cases b1 <;> simp [outcomeLabel, outcomeSkip]
      · simp [outcomeLabel, outcomeSkip]

theorem step_tokens_congr {env1 env2 : Env}
    (ht : env1.translate = env2.translate)
    (hv : env1.vocab = env2.vocab)
    (hz : env1.zeroExists = env2.zeroExists) (w : Token) (rest : List Token) :
    (step_tokens env1 w rest).2 = (step_tokens env2 w rest).2 ∧
    outcomeLabel (step_tokens env1 w rest).1 = outcomeLabel (step_tokens env2 w rest).1 ∧
    outcomeSkip (step_tokens env1 w rest).1 = outcomeSkip (step_tokens env2 w rest).1 := by
  unfold step_tokens
  rw [max_phrase_match_congr hv]
  cases hm : max_phrase_match env2 (w :: rest) 0 with
  | mk op n =>
    cases op with
    | some p =>
      dsimp only
      rw [try_whole_token_congr ht]
      cases hwt : try_whole_token env2 p with
      | mk b ps =>
        cases b
        · exact stepSingle_congr ht hz w
        · simp [outcomeLabel, outcomeSkip]
    | none => exact stepSingle_congr ht hz w

theorem resolve_loop_labels_congr {env1 env2 : Env}
    (ht : env1.translate = env2.translate)
    (hv : env1.vocab = env2.vocab)
    (hz : env1.zeroExists = env2.zeroExists) :
    ∀ (fuel : Nat) (ts : List Token),
      (resolve_loop env1 fuel ts).2 = (resolve_loop env2 fuel ts).2 := by
  intro fuel
  induction fuel with
  | zero => intro ts; cases ts <;> rfl
  | succ fuel ih =>
    intro ts
    cases ts with
    | nil => rfl
    | cons w rest =>
      obtain ⟨hn, hl, hs⟩ := step_tokens_congr ht hv hz w rest
      simp only [resolve_loop, hn, hl, hs, Prod.mk.injEq]
      rw [ih (rest.drop ((step_tokens env2 w rest).2 - 1))]
      simp

/-- C10: the translated-label list and the skipped list are a
deterministic function of the input text, the Synthesizer behaviour, the
Vocabulary Set, and the availability of the local zero asset: two runs of
the resolver agreeing on those (the pause/zero clip paths and pause
availability may differ, and only affect clip paths) produce identical
label lists and identical skipped lists. -/
theorem label_skip_determinism (env1 env2 : Env) (text : List Char)
    (ht : env1.translate = env2.translate)
    (hv : env1.vocab = env2.vocab)
    (hz : env1.zeroExists = env2.zeroExists) :
    (process_text_to_clips env1 text).2 = (process_text_to_clips env2 text).2 := by
  unfold process_text_to_clips
  simp only []
  rw [show (resolve_loop env1 (pySplitWs (clean_token text)).length
      (pySplitWs (clean_token text))).2 = (resolve_loop env2 (pySplitWs (clean_token text)).length
      (pySplitWs (clean_token text))).2 from resolve_loop_labels_congr ht hv hz _ _]

theorem label_skip_determinism_spot :
    envHi.translate = envHiNoPause.translate ∧
    envHi.vocab = envHiNoPause.vocab ∧
    envHi.zeroExists = envHiNoPause.zeroExists ∧
    envHi.usePause ≠ envHiNoPause.usePause ∧
    (process_text_to_clips envHi ("hi hi".data)).2 =
      (process_text_to_clips envHiNoPause ("hi hi".data)).2 :=
  ⟨rfl, rfl, rfl, by decide,
    label_skip_determinism envHi envHiNoPause ("hi hi".data) rfl rfl rfl⟩


theorem try_spell_word_bad_char (env : Env) :
    ∀ w : Token, (∃ c ∈ w, spellCharOk c = false) →
      try_spell_word env w = (false, []) := by
  intro w
  induction w with
  | nil =>
    rintro ⟨c, hc, _⟩
    simp at hc
  | cons c rest ih =>
    rintro ⟨d, hd, hdbad⟩
    rcases List.mem_cons.mp hd with rfl | hd2
    · exact try_spell_word_head_bad env rest hdbad
    · have hr := ih ⟨d, hd2, hdbad⟩
      exact try_spell_word_rest_false env c (by rw [hr])

theorem stepSingle_skips (env : Env) (w : Token)
    (hmd : isMultiDigit w = false)
    (hwt : (try_whole_token env w).1 = false)
    (hsp : try_spell_word env w = (false, [])) :
    stepSingle env w = (.skipHit w, 1) := by
  unfold stepSingle
  rw [if_neg (by simp [hmd])]
  cases hw3 : try_whole_token env w with
  | mk b2 ps2 =>
    rw [hw3] at hwt
    cases b2
    · dsimp only
      rw [hsp]
    · simp at hwt

/-- C6: a token that reaches the letter-by-letter spelling fallback and
contains a character outside `[a-z0-9]` has its whole spelling attempt
aborted with zero clips (never a partial spelling), and — when no phrase
consumed it and whole-token synthesis failed — the loop iteration records
it as skipped and advances by one. -/
theorem badchar_token_skipped (env : Env) (w : Token) (rest : List Token)
    (hbad : ∃ c ∈ w, spellCharOk c = false) :
    try_spell_word env w = (false, []) ∧
    (phraseConsumed env (w :: rest) = false →
      (try_whole_token env w).1 = false →
      step_tokens env w rest = (.skipHit w, 1)) := by
  refine ⟨try_spell_word_bad_char env w hbad, fun hpc hwt => ?_⟩
  have hspell := try_spell_word_bad_char env w hbad
  have hmd : isMultiDigit w = false := by
    rcases hbad with ⟨c, hcw, hcbad⟩
    unfold spellCharOk at hcbad
    have hcd : c.isDigit = false := (Bool.or_eq_false_iff.mp hcbad).2
    unfold isMultiDigit
    rw [Bool.and_eq_false_iff]
    right
    rw [List.all_eq_false]
    exact ⟨c, hcw, by simp [hcd]⟩
  unfold step_tokens
  unfold phraseConsumed at hpc
  cases hm : max_phrase_match env (w :: rest) 0 with
  | mk op n =>
    rw [hm] at hpc
    cases op with
    | some p =>
      dsimp only
      dsimp only at hpc
      cases hw2 : try_whole_token env p with
      | mk b ps =>
        rw [hw2] at hpc
        cases b
        · exact stepSingle_skips env w hmd hwt hspell
        · simp at hpc
    | none =>
      exact stepSingle_skips env w hmd hwt hspell

theorem badchar_token_skipped_spot :
    (∃ c ∈ ['a', '!'], spellCharOk c = false) ∧
    try_spell_word envBare ['a', '!'] = (false, []) ∧
    step_tokens envBare ['a', '!'] [] = (.skipHit ['a', '!'], 1) := by
  have h := badchar_token_skipped envBare ['a', '!'] [] ⟨'!', by decide, by decide⟩
  exact ⟨⟨'!', by decide, by decide⟩, h.1, h.2 (by decide) (by decide)⟩

theorem spelling_aborts_of_letter_none (env : Env) {c : Char}
    (hc1 : 'a' ≤ c) (hc2 : c ≤ 'z') (hlt : letter_token env c = none) :
    ∀ w : Token, c ∈ w → try_spell_word env w = (false, []) := by
  intro w
  induction w with
  | nil =>
    intro h
    simp at h
  | cons d rest ih =>
    intro hd
    rcases List.mem_cons.mp hd with rfl | hmem
    · unfold try_spell_word
      simp [spellCharOk_of_lower hc1 hc2, lower_not_digit hc1, hlt]
    · have hres := ih hmem
      exact try_spell_word_rest_false env d (by rw [hres])

/-- C8: letter variant selection tries the single-handed dataset token
first; if the Synthesizer raises (`none`) or yields zero clips for it, it
tries the double-handed token under the same condition; if both fail it
reports no usable token, and the spelling attempt of the containing word is
then aborted (the word will be skipped). -/
theorem letter_variant_selection (env : Env) (c : Char) (w : Token)
    (hc1 : 'a' ≤ c) (hc2 : c ≤ 'z') :
    (letter_token env c = some (singleHanded c) ↔
      (∃ ps, env.translate (singleHanded c) = some ps ∧ ps ≠ [])) ∧
    (letter_token env c = some (doubleHanded c) ↔
      ((env.translate (singleHanded c) = none ∨
        env.translate (singleHanded c) = some []) ∧
       ∃ ps, env.translate (doubleHanded c) = some ps ∧ ps ≠ [])) ∧
    (letter_token env c = none ↔
      ((env.translate (singleHanded c) = none ∨
        env.translate (singleHanded c) = some []) ∧
       (env.translate (doubleHanded c) = none ∨
        env.translate (doubleHanded c) = some []))) ∧
    (letter_token env c = none → c ∈ w → try_spell_word env w = (false, [])) := by
  have hsd := singleHanded_ne_doubleHanded c
  have key : letter_token env c =
      (if translateYields env (singleHanded c) = true then some (singleHanded c)
       else if translateYields env (doubleHanded c) = true then some (doubleHanded c)
       else none) := rfl
  refine ⟨?_, ?_, ?_, fun hlt hcw => spelling_aborts_of_letter_none env hc1 hc2 hlt w hcw⟩
  · rw [← translateYields_true_iff]
    constructor
    · intro h
      by_cases hy1 : translateYields env (singleHanded c) = true
      · exact hy1
      · rw [key, if_neg hy1] at h
        by_cases hy2 : translateYields env (doubleHanded c) = true
        · rw [if_pos hy2] at h
          exact absurd (Option.some.inj h).symm hsd
        · rw [if_neg hy2] at h
          simp at h
    · intro hy1
      rw [key, if_pos hy1]
  · rw [← translateYields_false_iff, ← translateYields_true_iff]
    constructor
    · intro h
      by_cases hy1 : translateYields env (singleHanded c) = true
      · rw [key, if_pos hy1] at h
        exact absurd (Option.some.inj h) hsd
      · have hy1f : translateYields env (singleHanded c) = false := by
          simp only [Bool.not_eq_true] at hy1
          exact hy1
        refine ⟨hy1f, ?_⟩
        by_cases hy2 : translateYields env (doubleHanded c) = true
        · exact hy2
        · rw [key, if_neg hy1, if_neg hy2] at h
          simp at h
    · rintro ⟨h1f, h2⟩
      rw [key, if_neg (by simp [h1f]), if_pos h2]
  · rw [← translateYields_false_iff, ← translateYields_false_iff]
    constructor
    · intro h
      by_cases hy1 : translateYields env (singleHanded c) = true
      · rw [key, if_pos hy1] at h
        simp at h
      · by_cases hy2 : translateYields env (doubleHanded c) = true
        · rw [key, if_neg hy1, if_pos hy2] at h
          simp at h
        · refine ⟨?_, ?_⟩
          · simp only [Bool.not_eq_true] at hy1
            exact hy1
          · simp only [Bool.not_eq_true] at hy2
            exact hy2
    · rintro ⟨h1f, h2f⟩
      rw [key, if_neg (by simp [h1f]), if_neg (by simp [h2f])]

theorem letter_variant_spot :
    ('a' ≤ 'q' ∧ 'q' ≤ 'z') ∧
    letter_token envBare 'q' = none ∧
    try_spell_word envBare ("q".data) = (false, []) := by
  have h := letter_variant_selection envBare 'q' ("q".data) (by decide) (by decide)
  refine ⟨⟨by decide, by decide⟩, ?_, ?_⟩
  · exact h.2.2.1.mpr ⟨Or.inl rfl, Or.inl rfl⟩
  · exact h.2.2.2 (h.2.2.1.mpr ⟨Or.inl rfl, Or.inl rfl⟩) (by decide)


/-- C4 counterexample: the claim says a word-internal apostrophe (code 39)
is preserved by normalization; in the code, `re.sub(r"[^\\w\\s\\-]", "", ...)`
removes apostrophes (the apostrophe is not in `[\\w\\s\\-]`), so the input
word d,o,n,apostrophe,t normalizes to the single token dont, apostrophe gone. -/
theorem apostrophe_not_preserved :
    Char.ofNat 39 ∈ ['d', 'o', 'n', Char.ofNat 39, 't'] ∧
    clean_token ['d', 'o', 'n', Char.ofNat 39, 't'] = "dont".data ∧
    Char.ofNat 39 ∉ clean_token ['d', 'o', 'n', Char.ofNat 39, 't'] ∧
    pySplitWs (clean_token ['d', 'o', 'n', Char.ofNat 39, 't']) = ["dont".data] := by
  decide

/-- C4 amended: normalization lowercases, strips, removes punctuation
except hyphens and underscores (regex `\\w` keeps `_`), and splits on
whitespace; apostrophes are removed rather than preserved.  Every
resulting token is nonempty and consists only of alphanumerics,
underscores and hyphens — in particular no whitespace, no ASCII
uppercase, and no apostrophe survives. -/
theorem normalization_amended (s : List Char) (t : Token)
    (ht : t ∈ pySplitWs (clean_token s)) :
    t ≠ [] ∧ ∀ c ∈ t,
      (c.isAlphanum = true ∨ c = '_' ∨ c = '-') ∧
      isUpperAscii c = false ∧ c ≠ Char.ofNat 39 := by
  obtain ⟨hne, hch⟩ := pySplitWs_tokens ht
  refine ⟨hne, fun c hc => ?_⟩
  obtain ⟨hin, hnsp⟩ := hch c hc
  obtain ⟨hkeep, c0, rfl⟩ := clean_token_chars hin
  refine ⟨?_, pyLower_not_upper c0, ?_⟩
  · unfold keepChar isWordChar at hkeep
    rcases Bool.or_eq_true_iff.mp hkeep with h1 | h1
    · rcases Bool.or_eq_true_iff.mp h1 with h2 | h2
      · rcases Bool.or_eq_true_iff.mp h2 with h3 | h3
        · exact Or.inl h3
        · exact Or.inr (Or.inl (by simpa using h3))
      · rw [h2] at hnsp
        simp at hnsp
    · exact Or.inr (Or.inr (by simpa using h1))
  · intro hap
    rw [hap] at hkeep
    exact absurd hkeep (by decide)


theorem normalization_amended_spot :
    ("hello".data ∈ pySplitWs (clean_token ("  Hello, world-1 ".data))) ∧
    ("hello".data ≠ [] ∧ ∀ c ∈ "hello".data,
      (c.isAlphanum = true ∨ c = '_' ∨ c = '-') ∧
      isUpperAscii c = false ∧ c ≠ Char.ofNat 39) :=
  ⟨by decide, normalization_amended ("  Hello, world-1 ".data) ("hello".data) (by decide)⟩

theorem stepSingle_no_phrase (env : Env) (w : Token) :
    ∀ p cs n, stepSingle env w ≠ (.phraseHit p cs, n) := by
  intro p cs n h
  rcases stepSingle_cases env w with ⟨ps, hs, _⟩ | ⟨ps, hs, _⟩ | hs <;>
    rw [hs] at h <;> simp at h

theorem resolve_loop_cons (env : Env) (fuel : Nat) (w : Token) (rest : List Token) :
    resolve_loop env (fuel + 1) (w :: rest) =
      (outcomeClips env (step_tokens env w rest).1 ++
        (resolve_loop env fuel (rest.drop ((step_tokens env w rest).2 - 1))).1,
       (outcomeLabel (step_tokens env w rest).1).toList ++
        (resolve_loop env fuel (rest.drop ((step_tokens env w rest).2 - 1))).2.1,
       (outcomeSkip (step_tokens env w rest).1).toList ++
        (resolve_loop env fuel (rest.drop ((step_tokens env w rest).2 - 1))).2.2) := rfl

/-- C1 counterexample: with vocabulary containing both the 3-word
candidate `a b c` and the 2-word candidate `a b`, where only `a b`
synthesizes, the condition of the claim (some length L in 3,2,1 whose candidate
is in the vocabulary and synthesizes — here L = 2) holds at position 0 of
input `a b c`, yet the resolver consumes no phrase there: it tries only the
longest vocabulary match `a b c`, whose synthesis fails, then falls back to
single tokens, and every token ends up skipped. -/
theorem phrase_no_retry_cex :
    phraseSlice [['a'], ['b'], ['c']] 0 2 ∈ envGate.vocab ∧
    (try_whole_token envGate (phraseSlice [['a'], ['b'], ['c']] 0 2)).1 = true ∧
    process_text_to_clips envGate ("a b c".data) = ([], [], [['a'], ['b'], ['c']]) := by
  decide

/-- C1 amended: a loop iteration consumes a phrase exactly when the
longest candidate (lengths 3, then 2, then 1) that is in the Vocabulary
Set also yields at least one clip; shorter vocabulary candidates are never
retried after a synthesis failure of the longest one.  The consumed phrase
is that longest vocabulary candidate, it contributes exactly one label,
and the cursor advances by the tried length.  In particular, with
`good morning` in the vocabulary and synthesizing, input `good morning`
resolves as the single two-word phrase. -/
theorem phrase_match_amended (env : Env) (w : Token) (rest : List Token) :
    (∀ p cs n, step_tokens env w rest = (.phraseHit p cs, n) ↔
      (max_phrase_match env (w :: rest) 0 = (some p, n) ∧
       try_whole_token env p = (true, cs))) ∧
    (∀ p n, max_phrase_match env (w :: rest) 0 = (some p, n) →
      p = phraseSlice (w :: rest) 0 n ∧ p ∈ env.vocab ∧
      ∀ m, n < m → m ≤ 3 → phraseSlice (w :: rest) 0 m ∉ env.vocab) ∧
    ("good morning".data ∈ env.vocab →
      (try_whole_token env ("good morning".data)).1 = true →
      (process_text_to_clips env ("good morning".data)).2.1 = ["good morning".data] ∧
      (process_text_to_clips env ("good morning".data)).2.2 = []) := by
  refine ⟨?_, ?_, ?_⟩
  · intro p cs n
    constructor
    · intro h
      unfold step_tokens at h
      cases hm : max_phrase_match env (w :: rest) 0 with
      | mk op n2 =>
        rw [hm] at h
        cases op with
        | some q =>
          dsimp only at h
          cases hwt : try_whole_token env q with
          | mk b ps =>
            rw [hwt] at h
            cases b
            · exact absurd h (stepSingle_no_phrase env w p cs n)
            · dsimp only at h
              simp only [Prod.mk.injEq, Outcome.phraseHit.injEq] at h
              rcases h with ⟨⟨rfl, rfl⟩, rfl⟩
              exact ⟨rfl, hwt⟩
        | none =>
          dsimp only at h
          exact absurd h (stepSingle_no_phrase env w p cs n)
    · rintro ⟨hm, hwt⟩
      unfold step_tokens
      rw [hm]
      dsimp only
      rw [hwt]
  · intro p n hm
    unfold max_phrase_match at hm
    split at hm
    · next h3 =>
      cases hm
      exact ⟨rfl, h3, fun m hlt hle => by omega⟩
    · next h3 =>
      split at hm
      · next h2 =>
        cases hm
        refine ⟨rfl, h2, ?_⟩
        intro m hlt hle
        have hm3 : m = 3 := by omega
        subst hm3
        exact h3
      · next h2 =>
        split at hm
        · next h1 =>
          cases hm
          refine ⟨rfl, h1, ?_⟩
          intro m hlt hle
          have : m = 2 ∨ m = 3 := by omega
          rcases this with rfl | rfl
          · exact h2
          · exact h3
        · cases hm
  · intro hgm hwt
    have htok : pySplitWs (clean_token ("good morning".data)) =
        ["good".data, "morning".data] := by decide
    have hslice : phraseSlice ["good".data, "morning".data] 0 3 =
        "good morning".data := by decide
    have hm : max_phrase_match env ["good".data, "morning".data] 0 =
        (some ("good morning".data), 3) := by
      unfold max_phrase_match
      rw [hslice, if_pos hgm]
    have hstep : step_tokens env ("good".data) [("morning".data)] =
        (.phraseHit ("good morning".data)
          (try_whole_token env ("good morning".data)).2, 3) := by
      unfold step_tokens
      rw [hm]
      dsimp only
      rw [try_whole_token_fst hwt]
    have hres : (resolve_loop env ((["good".data, "morning".data] : List Token).length)
        ["good".data, "morning".data]).2 = (["good morning".data], []) := by
      rw [show ((["good".data, "morning".data] : List Token).length) = 1 + 1 from rfl,
        resolve_loop_cons, hstep]
      rfl
    unfold process_text_to_clips
    simp only [htok]
    constructor
    · show (resolve_loop env ((["good".data, "morning".data] : List Token).length)
        ["good".data, "morning".data]).2.1 = ["good morning".data]
      rw [hres]
    · show (resolve_loop env ((["good".data, "morning".data] : List Token).length)
        ["good".data, "morning".data]).2.2 = []
      rw [hres]

theorem phrase_match_amended_spot :
    "good morning".data ∈ envGm.vocab ∧
    (try_whole_token envGm ("good morning".data)).1 = true ∧
    (process_text_to_clips envGm ("good morning".data)).2.1 = ["good morning".data] ∧
    (process_text_to_clips envGm ("good morning".data)).2.2 = [] := by
  have h := (phrase_match_amended envGm ("good".data) [("morning".data)]).2.2
    (by decide) (by decide)
  exact ⟨by decide, by decide, h.1, h.2⟩


theorem try_spell_word_fst {env : Env} {w : Token}
    (h : (try_spell_word env w).1 = true) :
    try_spell_word env w = (true, (try_spell_word env w).2) := by
  cases hs : try_spell_word env w with
  | mk b ps =>
    rw [hs] at h
    subst h
    rfl

theorem step_tokens_no_phrase (env : Env) (w : Token) (rest : List Token)
    (hpc : phraseConsumed env (w :: rest) = false) :
    step_tokens env w rest = stepSingle env w := by
  unfold step_tokens
  unfold phraseConsumed at hpc
  cases hm : max_phrase_match env (w :: rest) 0 with
  | mk op n =>
    rw [hm] at hpc
    cases op with
    | some p =>
      dsimp only
      dsimp only at hpc
      cases hw2 : try_whole_token env p with
      | mk b ps =>
        rw [hw2] at hpc
        cases b
        · rfl
        · simp at hpc
    | none => rfl

theorem step_tokens_multidigit (env : Env) (w : Token) (rest : List Token)
    (hmd : isMultiDigit w = true)
    (hpc : phraseConsumed env (w :: rest) = false) :
    ((try_spell_word env w).1 = true →
      step_tokens env w rest = (.spellHit w (try_spell_word env w).2, 1)) ∧
    ((try_spell_word env w).1 = false →
      step_tokens env w rest = (.skipHit w, 1)) := by
  rw [step_tokens_no_phrase env w rest hpc]
  unfold stepSingle
  rw [if_pos hmd]
  cases hsp : try_spell_word env w with
  | mk b ps =>
    cases b
    · exact ⟨fun h => by simp at h, fun _ => rfl⟩
    · exact ⟨fun _ => rfl, fun h => by simp at h⟩

theorem try_spell_word_digit_ok (env : Env) {c : Char} {rest : Token}
    {ps qs : List String}
    (hc : c.isDigit = true) (hcall : try_whole_token env [c] = (true, ps))
    (hrest : try_spell_word env rest = (true, qs)) :
    try_spell_word env (c :: rest) = (true, ps ++ qs) := by
  have hok : spellCharOk c = true := by
    unfold spellCharOk
    rw [hc]
    simp
  unfold try_spell_word
  simp [hok, hc, hcall, hrest]

/-- C2 counterexample: the claim says a multi-digit numeral not consumed
by a phrase match gets a whole-token synthesis attempt of the full
numeral first.  With a Synthesizer that can synthesize the whole numeral
`42` (but no single digit) and an empty vocabulary, the code never
attempts the whole numeral: it goes directly to digit-by-digit spelling,
which fails, and records `42` as skipped. -/
theorem numeral_whole_first_cex :
    try_whole_token envNum ("42".data) = (true, ["42.mp4"]) ∧
    process_text_to_clips envNum ("42".data) = ([], [], [['4', '2']]) := by
  decide

/-- C2 amended: a multi-digit numeral (length > 1, all digits) not
consumed by a phrase match is resolved directly by digit-by-digit
spelling — no whole-token synthesis of the full numeral is attempted —
with each digit resolved independently and the literal local asset
substituted for digit `0` when the Synthesizer yields nothing for it; on
spelling success the outcome is one label joining the digits with `+`
(so `42` yields label `4+2`), on failure the token is recorded as
skipped; the cursor advances by 1 in every case. -/
theorem multidigit_spelling_amended (env : Env) (w : Token) (rest : List Token) :
    (isMultiDigit w = true → phraseConsumed env (w :: rest) = false →
      (((try_spell_word env w).1 = true →
        step_tokens env w rest = (.spellHit w (try_spell_word env w).2, 1) ∧
        outcomeLabel (Outcome.spellHit w (try_spell_word env w).2) =
          some (joinPlus w)) ∧
       ((try_spell_word env w).1 = false →
        step_tokens env w rest = (.skipHit w, 1)))) ∧
    ((try_whole_token env ['0']).1 = false → env.zeroExists = true →
      try_spell_word env ['0'] = (true, [env.zeroPath])) ∧
    (phraseConsumed env [['4', '2']] = false →
      (try_whole_token env ['4']).1 = true →
      (try_whole_token env ['2']).1 = true →
      (process_text_to_clips env ("42".data)).2.1 = ["4+2".data] ∧
      (process_text_to_clips env ("42".data)).2.2 = []) := by
  refine ⟨?_, ?_, ?_⟩
  · intro hmd hpc
    obtain ⟨hA, hB⟩ := step_tokens_multidigit env w rest hmd hpc
    exact ⟨fun h => ⟨hA h, rfl⟩, hB⟩
  · intro h0 hz
    unfold try_spell_word
    cases hc : try_whole_token env ['0'] with
    | mk b ps =>
      rw [hc] at h0
      cases b
      · simp [hz, try_spell_word, hc, show spellCharOk '0' = true by decide,
          show Char.isDigit '0' = true by decide]
      · simp at h0
  · intro hpc h4 h2
    have htok : pySplitWs (clean_token ("42".data)) = [['4', '2']] := by decide
    have hsp2 : try_spell_word env ['2'] =
        (true, (try_whole_token env ['2']).2 ++ []) :=
      try_spell_word_digit_ok env (by decide) (try_whole_token_fst h2) rfl
    have hsp42 : try_spell_word env ['4', '2'] =
        (true, (try_whole_token env ['4']).2 ++
          ((try_whole_token env ['2']).2 ++ [])) :=
      try_spell_word_digit_ok env (by decide) (try_whole_token_fst h4) hsp2
    have hmd42 : isMultiDigit ['4', '2'] = true := by decide
    have hstep := (step_tokens_multidigit env ['4', '2'] [] hmd42 hpc).1
      (by rw [hsp42])
    have hjp : joinPlus ['4', '2'] = "4+2".data := by decide
    have hres : (resolve_loop env (([['4', '2']] : List Token)).length
        [['4', '2']]).2 = (["4+2".data], []) := by
      rw [show ((([['4', '2']] : List Token)).length) = 0 + 1 from rfl,
        resolve_loop_cons, hstep]
      dsimp only [outcomeLabel, outcomeSkip, Option.toList, resolve_loop]
      rw [hjp]
      rfl
    unfold process_text_to_clips
    simp only [htok]
    constructor
    · show (resolve_loop env (([['4', '2']] : List Token)).length
        [['4', '2']]).2.1 = ["4+2".data]
      rw [hres]
    · show (resolve_loop env (([['4', '2']] : List Token)).length
        [['4', '2']]).2.2 = []
      rw [hres]

theorem multidigit_spelling_spot :
    phraseConsumed envDigits [['4', '2']] = false ∧
    (try_whole_token envDigits ['4']).1 = true ∧
    (try_whole_token envDigits ['2']).1 = true ∧
    (process_text_to_clips envDigits ("42".data)).2.1 = ["4+2".data] ∧
    (process_text_to_clips envDigits ("42".data)).2.2 = [] := by
  have h := (multidigit_spelling_amended envDigits ['4', '2'] []).2.2
    (by decide) (by decide) (by decide)
  exact ⟨by decide, by decide, by decide, h.1, h.2⟩


theorem getLast?_append_right {l1 l2 : List String} (h : l2 ≠ []) :
    (l1 ++ l2).getLast? = l2.getLast? := by
  induction l1 with
  | nil => rfl
  | cons a l ih =>
    rw [List.cons_append]
    cases hl : l ++ l2 with
    | nil => exact absurd (List.append_eq_nil.mp hl).2 h
    | cons b t =>
      rw [List.getLast?_cons_cons, ← hl, ih]

theorem pauseFlat_ne_nil (p : String) (u : List String) (us : List (List String)) :
    (((u :: us).map (fun v => v ++ [p])).flatten) ≠ [] := by
  simp [List.append_eq_nil]

theorem pauseFlat_getLast (p : String) :
    ∀ us : List (List String), us ≠ [] →
      (((us.map (fun v => v ++ [p])).flatten)).getLast? = some p := by
  intro us
  induction us with
  | nil => intro h; exact absurd rfl h
  | cons u us ih =>
    intro _
    cases us with
    | nil => simp
    | cons v vs =>
      rw [List.map_cons, List.flatten_cons,
        getLast?_append_right (pauseFlat_ne_nil p v vs)]
      exact ih (by simp)

theorem pauseFlat_dropLast (p : String) :
    ∀ us : List (List String), us ≠ [] →
      (((us.map (fun v => v ++ [p])).flatten)).dropLast = sepJoin p us := by
  intro us
  induction us with
  | nil => intro h; exact absurd rfl h
  | cons u us ih =>
    intro _
    cases us with
    | nil => simp [sepJoin]
    | cons v vs =>
      rw [List.map_cons, List.flatten_cons,
        List.dropLast_append_of_ne_nil (u ++ [p]) (pauseFlat_ne_nil p v vs),
        ih (by simp)]
      show (u ++ [p]) ++ sepJoin p (v :: vs) = sepJoin p (u :: v :: vs)
      rw [show sepJoin p (u :: v :: vs) = u ++ p :: sepJoin p (v :: vs) from rfl]
      simp

theorem sepJoin_ne_nil (p : String) (u : List String) (us : List (List String))
    (hu : u ≠ []) : sepJoin p (u :: us) ≠ [] := by
  cases us with
  | nil => exact hu
  | cons v vs =>
    show u ++ p :: sepJoin p (v :: vs) ≠ []
    simp [List.append_eq_nil]

theorem sepJoin_head (p : String) :
    ∀ us : List (List String), (∀ u ∈ us, u ≠ []) → (∀ u ∈ us, p ∉ u) →
      (sepJoin p us).head? ≠ some p := by
  intro us
  cases us with
  | nil => intro _ _ h; simp [sepJoin] at h
  | cons u vs =>
    intro h1 h2
    have hu : u ≠ [] := h1 u (List.mem_cons_self u vs)
    have hpu : p ∉ u := h2 u (List.mem_cons_self u vs)
    cases vs with
    | nil =>
      show u.head? ≠ some p
      cases u with
      | nil => exact absurd rfl hu
      | cons a t =>
        simp only [List.head?_cons, ne_eq, Option.some.injEq]
        intro hap
        exact hpu (hap ▸ List.mem_cons_self a t)
    | cons v vs =>
      show (u ++ p :: sepJoin p (v :: vs)).head? ≠ some p
      rw [List.head?_append_of_ne_nil u hu]
      cases u with
      | nil => exact absurd rfl hu
      | cons a t =>
        simp only [List.head?_cons, ne_eq, Option.some.injEq]
        intro hap
        exact hpu (hap ▸ List.mem_cons_self a t)

theorem sepJoin_last (p : String) :
    ∀ us : List (List String), (∀ u ∈ us, u ≠ []) → (∀ u ∈ us, p ∉ u) →
      (sepJoin p us).getLast? ≠ some p := by
  intro us
  induction us with
  | nil => intro _ _ h; simp [sepJoin] at h
  | cons u vs ih =>
    intro h1 h2
    have hu : u ≠ [] := h1 u (List.mem_cons_self u vs)
    have hpu : p ∉ u := h2 u (List.mem_cons_self u vs)
    cases vs with
    | nil =>
      show u.getLast? ≠ some p
      intro hgl
      exact hpu (List.mem_of_mem_getLast? hgl)
    | cons v vs =>
      show (u ++ p :: sepJoin p (v :: vs)).getLast? ≠ some p
      rw [getLast?_append_right (by simp)]
      cases hsj : sepJoin p (v :: vs) with
      | nil =>
        exact absurd hsj (sepJoin_ne_nil p v vs (h1 v (by simp)))
      | cons b t =>
        rw [List.getLast?_cons_cons, ← hsj]
        exact ih (fun x hx => h1 x (List.mem_cons_of_mem u hx))
          (fun x hx => h2 x (List.mem_cons_of_mem u hx))

theorem outcomeClips_phrase (env : Env) (p : Token) (ps : List String) :
    outcomeClips env (.phraseHit p ps) =
      ps ++ (if env.usePause then [env.pausePath] else []) := rfl

theorem outcomeClips_whole (env : Env) (w : Token) (ps : List String) :
    outcomeClips env (.wholeHit w ps) =
      ps ++ (if env.usePause then [env.pausePath] else []) := rfl

theorem outcomeClips_spell (env : Env) (w : Token) (ps : List String) :
    outcomeClips env (.spellHit w ps) =
      ps ++ (if env.usePause then [env.pausePath] else []) := rfl

theorem outcomeClips_skip (env : Env) (w : Token) :
    outcomeClips env (.skipHit w) = [] := rfl

theorem resolvedClips_phrase (p : Token) (ps : List String) :
    resolvedClips (.phraseHit p ps) = some ps := rfl

theorem resolvedClips_whole (w : Token) (ps : List String) :
    resolvedClips (.wholeHit w ps) = some ps := rfl

theorem resolvedClips_spell (w : Token) (ps : List String) :
    resolvedClips (.spellHit w ps) = some ps := rfl

theorem resolvedClips_skip (w : Token) :
    resolvedClips (.skipHit w) = none := rfl

theorem clips_flatten_units (env : Env) (hp : env.usePause = true) :
    ∀ tr : List (Outcome × List Token),
      ((tr.map (fun e => outcomeClips env e.1)).flatten) =
        (((tr.filterMap (fun e => resolvedClips e.1)).map
          (fun u => u ++ [env.pausePath])).flatten) := by
  intro tr
  induction tr with
  | nil => rfl
  | cons e tr ih =>
    rcases e with ⟨o, g⟩
    cases o <;>
      simp [List.map_cons, List.flatten_cons, List.filterMap_cons,
        outcomeClips_phrase, outcomeClips_whole, outcomeClips_spell,
        outcomeClips_skip, resolvedClips_phrase, resolvedClips_whole,
        resolvedClips_spell, resolvedClips_skip, hp, ih]

theorem trace_units_props (env : Env) (text : List Char)
    (hsy : ∀ t ps, env.translate t = some ps → env.pausePath ∉ ps)
    (hz : env.zeroPath ≠ env.pausePath) :
    ∀ u ∈ (traceOf env text).filterMap (fun e => resolvedClips e.1),
      u ≠ [] ∧ env.pausePath ∉ u := by
  intro u hu
  rcases List.mem_filterMap.mp hu with ⟨e, he, hres⟩
  rcases run_trace_mem env _ _ e he with ⟨w, rest, hmem, rfl⟩
  dsimp only at hres
  have hw : w ≠ [] := (pySplitWs_tokens (hmem w (List.mem_cons_self w rest))).1
  rcases step_tokens_cases env w rest with
    ⟨p, ps, n, hstep, hmp, hwt⟩ | ⟨ps, hstep, hwt⟩ | ⟨ps, hstep, hsp⟩ | hstep
  · rw [hstep] at hres
    dsimp only at hres
    rw [resolvedClips_phrase] at hres
    cases hres
    refine ⟨(try_whole_token_true hwt).2, fun hx => ?_⟩
    exact hsy p _ (try_whole_token_true hwt).1 hx
  · rw [hstep] at hres
    dsimp only at hres
    rw [resolvedClips_whole] at hres
    cases hres
    refine ⟨(try_whole_token_true hwt).2, fun hx => ?_⟩
    exact hsy w _ (try_whole_token_true hwt).1 hx
  · rw [hstep] at hres
    dsimp only at hres
    rw [resolvedClips_spell] at hres
    cases hres
    refine ⟨try_spell_word_true_nonempty hw hsp, fun hx => ?_⟩
    rcases try_spell_word_clips hsp env.pausePath hx with ⟨t, qs, htr, hxq⟩ | hx2
    · exact hsy t qs htr hxq
    · exact hz hx2.symm
  · rw [hstep] at hres
    dsimp only at hres
    rw [resolvedClips_skip] at hres
    cases hres

/-- C5: when the pause clip is configured and the Synthesizer never
returns the pause path itself (the local zero asset being distinct as
well), the final clip list is exactly the clips of the resolved units joined by
a single separator between consecutive units: the separator never appears
as the first or the last element, even when the last unit resolved
successfully (exactly the one trailing separator is removed after the
pass). -/
theorem separator_placement (env : Env) (text : List Char)
    (hp : env.usePause = true)
    (hsy : ∀ t ps, env.translate t = some ps → env.pausePath ∉ ps)
    (hz : env.zeroPath ≠ env.pausePath) :
    (process_text_to_clips env text).1 =
      sepJoin env.pausePath
        ((traceOf env text).filterMap (fun e => resolvedClips e.1)) ∧
    (process_text_to_clips env text).1.head? ≠ some env.pausePath ∧
    (process_text_to_clips env text).1.getLast? ≠ some env.pausePath := by
  have hU := trace_units_props env text hsy hz
  have hraw : (process_text_to_clips env text).1 =
      trimTrailingPause env
        ((((traceOf env text).filterMap (fun e => resolvedClips e.1)).map
          (fun u => u ++ [env.pausePath])).flatten) := by
    unfold process_text_to_clips traceOf tokensOf
    simp only [resolve_loop_trace]
    rw [clips_flatten_units env hp]
  have hmain : trimTrailingPause env
      ((((traceOf env text).filterMap (fun e => resolvedClips e.1)).map
        (fun u => u ++ [env.pausePath])).flatten) =
      sepJoin env.pausePath
        ((traceOf env text).filterMap (fun e => resolvedClips e.1)) := by
    cases hUe : (traceOf env text).filterMap (fun e => resolvedClips e.1) with
    | nil => simp [trimTrailingPause, sepJoin]
    | cons u us =>
      have hlast := pauseFlat_getLast env.pausePath (u :: us) (by simp)
      unfold trimTrailingPause
      rw [if_pos ⟨hp, pauseFlat_ne_nil env.pausePath u us, hlast⟩]
      exact pauseFlat_dropLast env.pausePath (u :: us) (by simp)
  rw [hraw, hmain]
  refine ⟨rfl, ?_, ?_⟩
  · exact sepJoin_head env.pausePath _ (fun v hv => (hU v hv).1)
      (fun v hv => (hU v hv).2)
  · exact sepJoin_last env.pausePath _ (fun v hv => (hU v hv).1)
      (fun v hv => (hU v hv).2)

theorem separator_placement_spot :
    envHi.usePause = true ∧
    envHi.zeroPath ≠ envHi.pausePath ∧
    (process_text_to_clips envHi ("hi hi".data)).1 =
      ["h.mp4", "Pause.mp4", "h.mp4"] ∧
    (process_text_to_clips envHi ("hi hi".data)).1.head? ≠ some envHi.pausePath ∧
    (process_text_to_clips envHi ("hi hi".data)).1.getLast? ≠ some envHi.pausePath := by
  have hsy : ∀ t ps, envHi.translate t = some ps → envHi.pausePath ∉ ps := by
    intro t ps h
    by_cases ht : t = "hi".data
    · simp only [envHi, ht, if_pos] at h
      cases h
      decide
    · simp [envHi, ht] at h
  have h := separator_placement envHi ("hi hi".data) rfl hsy (by decide)
  refine ⟨rfl, by decide, ?_, h.2.1, h.2.2⟩
  rw [h.1]
  decide


theorem token_outcome_partition_spot :
    ((Outcome.wholeHit ("hi".data) ["h.mp4"], [("hi".data)]) ∈
      traceOf envHi ("hi hi".data)) ∧
    outcomeRawClips (Outcome.wholeHit ("hi".data) ["h.mp4"]) ≠ [] := by
  have h := (token_outcome_partition envHi ("hi hi".data)).2.2.2.2.1
  exact ⟨by decide, h (Outcome.wholeHit ("hi".data) ["h.mp4"], [("hi".data)])
    (by decide) (by decide)⟩

end SilentSpeaker
